import Mathlib

/-!
Verification development for the chunked audio-transcription pipeline.

The development shallowly embeds the pure decision logic of the pipeline:

* the timestamp aligner `addOffsetToTimestamp` from `src/lib/audio-chunks.ts`
  (together with models of the JavaScript string and number primitives it
  uses: `trim`, `split(":")`, `Number`, `String(n).padStart(2, "0")`,
  `join(":")`);
* the duration prober `getAudioDuration` and splitter `splitAudioIntoChunks`
  from `src/lib/audio-chunks.ts`, with probed durations modelled as
  rationals;
* the response parser `parseGeminiJson`, the per-chunk retry loop
  `runSingleChunk` (modelled as a deterministic function of a per-attempt
  outcome oracle that also records the externally visible side effects),
  and the orchestrator `runGeminiTranscription` (its merge loop, its
  terminal status decision and its sequence of awaited progress writes to
  the Directus task store) from the Gemini transcription module.

Effectful calls (upload, poll, generate, delete, sleep, unlink, task-store
writes) are modelled by explicit outcome parameters and event traces;
the external JSON facilities (`JSON.parse` plus the `jsonrepair` npm
package) are modelled as opaque function parameters returning `Option`,
`none` standing for a thrown exception.
-/

namespace Transcribe

/-- Decimal digits of a natural number, most significant first, computed with
explicit fuel so that the kernel can evaluate it.  Together with
`natDigits` this models the JavaScript rendering `String(n)` of a
non-negative integer. -/
def natDigitsAux : Nat → Nat → List Nat
  | 0, _ => []
  | f + 1, n => if n < 10 then [n] else natDigitsAux f (n / 10) ++ [n % 10]

/-- Decimal digits of `n`, most significant first; models `String(n)` for a
non-negative integer `n`. -/
def natDigits (n : Nat) : List Nat := natDigitsAux (n + 1) n

/-- Value of a list of decimal digits, most significant first; the numeric
reading a JavaScript `Number(s)` performs on a digit string. -/
def digitsVal (ds : List Nat) : Nat := ds.foldl (fun a d => a * 10 + d) 0

/-- Numeric value of a decimal digit character. -/
def charVal (c : Char) : Nat := c.toNat - 48

/-- The whitespace characters relevant to `String.prototype.trim` for the
strings handled here. -/
def isJsWhitespace (c : Char) : Bool :=
  c = ' ' || c = '\t' || c = '\n' || c = '\r'

/-- Drops leading and trailing whitespace from a character list; models
`String.prototype.trim`. -/
def trimChars (l : List Char) : List Char :=
  ((l.dropWhile isJsWhitespace).reverse.dropWhile isJsWhitespace).reverse

/-- Models `timeStr.trim()` from `addOffsetToTimestamp`. -/
def jsTrim (s : String) : String := String.mk (trimChars s.data)

/-- Splits a character list at every occurrence of `sep`; models
`String.prototype.split` with a single-character separator (in particular
`"".split(":") == [""]`). -/
def splitOnChar (sep : Char) : List Char → List (List Char)
  | [] => [[]]
  | c :: rest =>
    let r := splitOnChar sep rest
    if c = sep then [] :: r
    else
      match r with
      | [] => [[c]]
      | h :: t => (c :: h) :: t

/-- Models the JavaScript conversion `Number(s)` on the colon-split
components of a timecode string: the empty component converts to `0`, a
digit component to its decimal value, and anything else to `NaN`
(represented by `none`). -/
def jsNumberChars (cs : List Char) : Option Nat :=
  if cs.isEmpty then some 0
  else if cs.all Char.isDigit then some (digitsVal (cs.map charVal))
  else none

/-- A non-empty string of decimal digits. -/
def isDigitString (cs : List Char) : Bool := !cs.isEmpty && cs.all Char.isDigit

/-- Models `String(n).padStart(2, "0")` from `addOffsetToTimestamp`. -/
def padTwo (n : Nat) : List Char :=
  let ds := (natDigits n).map Nat.digitChar
  List.replicate (2 - ds.length) '0' ++ ds

/-- Renders a total number of seconds in the `HH:MM:SS` form produced by
`addOffsetToTimestamp` in `src/lib/audio-chunks.ts`:
`[newH, newM, newS].map((n) => String(n).padStart(2, "0")).join(":")` with
`newH = floor(total / 3600)`, `newM = floor((total % 3600) / 60)`,
`newS = floor(total % 60)`.  There is no rollover cap, so the hour field
may exceed `23` (and may be longer than two characters). -/
def renderTimecode (total : Nat) : String :=
  String.mk (padTwo (total / 3600) ++ ':' :: (padTwo (total % 3600 / 60) ++ ':' :: padTwo (total % 60)))

/-- Embedding of `addOffsetToTimestamp(timeStr, offsetSec)` from
`src/lib/audio-chunks.ts`, for non-negative integer offsets:
the string is trimmed, split at colons, the components are converted with
`Number` and destructured as `[h = 0, m = 0, s = 0]`, the total
`h * 3600 + m * 60 + s + offsetSec` is computed and re-rendered.  A `NaN`
component makes the whole result render as `NaN:NaN:NaN`, exactly as the
JavaScript arithmetic would. -/
def addOffsetToTimestamp (timeStr : String) (offsetSec : Nat) : String :=
  let parts := (splitOnChar ':' (jsTrim timeStr).data).map jsNumberChars
  match parts.getD 0 (some 0), parts.getD 1 (some 0), parts.getD 2 (some 0) with
  | some h, some m, some s => renderTimecode (h * 3600 + m * 60 + s + offsetSec)
  | _, _, _ => String.mk ['N', 'a', 'N', ':', 'N', 'a', 'N', ':', 'N', 'a', 'N']

/-- A well-formed `HH:MM:SS` timecode: after trimming, splitting at colons
yields exactly three non-empty digit components. -/
def IsValidTimecode (t : String) : Prop :=
  ∃ a b c, splitOnChar ':' (jsTrim t).data = [a, b, c] ∧
    isDigitString a = true ∧ isDigitString b = true ∧ isDigitString c = true

/-- One transcript segment, as produced per chunk by the Gemini structured
output and consumed by the merge loop (the `Segment` type of the source:
`start`/`end` timecode strings, optional `speaker` label, `text`).  The
source field `end` is rendered here as `end_`. -/
structure Segment where
  start : String
  end_ : String
  speaker : Option String
  text : String
  deriving DecidableEq

/-- A per-chunk (and merged) transcription payload, the `TranscriptionResult`
type of the source.  The optional string fields `summary` and
`detected_language` are modelled with `""` standing for
absent-or-empty (the source only ever tests them for JavaScript
truthiness), and `speakers_count` with `0` standing for
absent-or-zero. -/
structure TranscriptionResult where
  segments : List Segment
  summary : String
  detected_language : String
  speakers_count : Nat
  deriving DecidableEq

/-- The configured chunk duration, `CHUNK_DURATION_SEC = 600` seconds in
`src/lib/audio-chunks.ts`. -/
def CHUNK_DURATION_SEC : Nat := 600

/-- Shifts both timecodes of a segment, as the merge loop of
`runGeminiTranscription` does for a chunk at offset `offsetSec`. -/
def adjustSegment (offsetSec : Nat) (seg : Segment) : Segment :=
  { seg with
    start := addOffsetToTimestamp seg.start offsetSec
    end_ := addOffsetToTimestamp seg.end_ offsetSec }

/-- The mutable accumulators of the merge loop of `runGeminiTranscription`:
`allSegments`, `summaries`, `detectedLanguage`, `speakersCount`. -/
structure MergeAcc where
  allSegments : List Segment
  summaries : List String
  detectedLanguage : String
  speakersCount : Nat
  deriving DecidableEq

/-- One iteration of the merge loop of `runGeminiTranscription` at chunk
index `i`: if the chunk produced a result with a non-empty segment list,
its segments are offset by `i * CHUNK_DURATION_SEC` and appended, a
non-empty summary is collected, a non-empty detected language overwrites
the current one, and a non-zero speaker count raises the maximum. -/
def mergeStep (acc : MergeAcc) (i : Nat) (res : Option TranscriptionResult) : MergeAcc :=
  match res with
  | none => acc
  | some r =>
    if r.segments.isEmpty then acc
    else
      { allSegments := acc.allSegments ++ r.segments.map (adjustSegment (i * CHUNK_DURATION_SEC))
        summaries := acc.summaries ++ (if r.summary = "" then [] else [r.summary])
        detectedLanguage := if r.detected_language = "" then acc.detectedLanguage else r.detected_language
        speakersCount := if r.speakers_count = 0 then acc.speakersCount else max acc.speakersCount r.speakers_count }

/-- The complete merge loop of `runGeminiTranscription` over the per-chunk
results array, in chunk-index order, starting from the initial
accumulators `[] / [] / "" / 0`. -/
def mergeResults (results : List (Option TranscriptionResult)) : MergeAcc :=
  (results.enum).foldl (fun acc p => mergeStep acc p.1 p.2) ⟨[], [], "", 0⟩

/-- The error message thrown by `runGeminiTranscription` when no chunk
produced segments. -/
def NO_SEGMENTS_ERROR : String :=
  "Не удалось получить сегменты ни из одного фрагмента аудио"

/-- The terminal write `runGeminiTranscription` performs on the task store:
either `status = completed` with the merged result, the language and the
speaker count, or `status = failed` with an error message. -/
inductive TerminalUpdate where
  | completed (result : TranscriptionResult) (language : String) (speakers : Nat)
  | failed (errorMessage : String)
  deriving DecidableEq

/-- The terminal decision of `runGeminiTranscription` as a function of the
per-chunk results: merge, then fail with `NO_SEGMENTS_ERROR` if no segment
survived, otherwise complete with the assembled `TranscriptionResult`
(summaries joined by a blank line, `speakersCount || 1`). -/
def finalizeTask (results : List (Option TranscriptionResult)) : TerminalUpdate :=
  let acc := mergeResults results
  if acc.allSegments.isEmpty then .failed NO_SEGMENTS_ERROR
  else
    .completed
      { segments := acc.allSegments
        summary := String.intercalate (String.mk ['\n', '\n']) acc.summaries
        detected_language := acc.detectedLanguage
        speakers_count := if acc.speakersCount = 0 then 1 else acc.speakersCount }
      acc.detectedLanguage
      (if acc.speakersCount = 0 then 1 else acc.speakersCount)

/-- The offset-adjusted segment list contributed to the merge by the chunk
at index `p.1` with per-chunk result `p.2`. -/
def chunkSegments (p : Nat × Option TranscriptionResult) : List Segment :=
  match p.2 with
  | some r => r.segments.map (adjustSegment (p.1 * CHUNK_DURATION_SEC))
  | none => []

/-- The summaries of the chunks that returned a result, skipping empty
ones. -/
def chunkSummaries (results : List (Option TranscriptionResult)) : List String :=
  ((results.filterMap id).map TranscriptionResult.summary).filter (fun s => decide (s ≠ ""))

/-- The detected-language values of the chunks that returned a result, in
chunk-index order. -/
def chunkLanguages (results : List (Option TranscriptionResult)) : List String :=
  (results.filterMap id).map TranscriptionResult.detected_language

/-- The speaker counts of the chunks that returned a result, in chunk-index
order. -/
def chunkSpeakerCounts (results : List (Option TranscriptionResult)) : List Nat :=
  (results.filterMap id).map TranscriptionResult.speakers_count

/-- Specification-side reading of the merged language (claim wording): the
last non-empty value of the list, or `""` when there is none. -/
def specLastNonEmpty (xs : List String) : String :=
  (xs.filter (fun s => decide (s ≠ ""))).getLastD ""

/-- Specification-side reading of the merged speaker count (claim wording):
the maximum value observed, with a floor of `1`. -/
def specSpeakerCount (xs : List Nat) : Nat := max 1 (xs.foldl max 0)

/-- Models the state of the `results` array of `runGeminiTranscription`
after a sequence of `results[i] = v` writes, starting from `arr`. -/
def applyWrites (ws : List (Nat × Option TranscriptionResult))
    (arr : List (Option TranscriptionResult)) : List (Option TranscriptionResult) :=
  ws.foldl (fun a w => a.set w.1 w.2) arr

/-- Embedding of `parseGeminiJson(rawText)`: an empty (or
whitespace-only) text is rejected, otherwise a strict `JSON.parse` is
attempted and, only if it throws, a `jsonrepair` pass followed by a strict
parse of the repaired text.  The external facilities are passed in as
`jp` (JSON.parse-and-cast, `none` for a thrown exception) and `jr`
(jsonrepair, `none` for a thrown exception); every exception collapses to
`none`. -/
def parseGeminiJson (jp : String → Option TranscriptionResult)
    (jr : String → Option String) (rawText : String) : Option TranscriptionResult :=
  if jsTrim rawText = "" then none
  else
    match jp rawText with
    | some r => some r
    | none =>
      match jr rawText with
      | none => none
      | some repaired => jp repaired

/-- Whether a parsed per-chunk payload is accepted by `runSingleChunk`:
the source condition `parsed?.segments?.length`, i.e. a present result
with a non-empty segment list. -/
def accepts : Option TranscriptionResult → Bool
  | some r => !r.segments.isEmpty
  | none => false

/-- The outcome of one attempt of `runSingleChunk` against the external
service: the upload call throws; the post-poll file state is not
`ACTIVE` (covering remote failure and the poll-ceiling timeout); the
generate call throws; or generation returns the raw text `raw`. -/
inductive AttemptSpec where
  | failUpload
  | failState (state : String)
  | failGenerate
  | genOk (raw : String)
  deriving DecidableEq

/-- The externally visible side effects of `runSingleChunk`, in order: an
upload call issued by attempt `a`, a best-effort delete of the remote
handle obtained by attempt `a`, a backoff sleep of `ms` milliseconds, and
the deletion of the chunk's local file. -/
inductive ChunkEvent where
  | upload (attempt : Nat)
  | deleteRemote (attempt : Nat)
  | sleep (ms : Nat)
  | unlinkLocal
  deriving DecidableEq

/-- The best-effort remote-handle deletion performed by the catch block of
`runSingleChunk` on the handle currently stored in `geminiFileName`
(`none` when no handle is held). -/
def delEvents : Option Nat → List ChunkEvent
  | some h => [ChunkEvent.deleteRemote h]
  | none => []

/-- Embedding of the retry loop of `runSingleChunk`, recursing over the
remaining attempts.  Arguments after the oracle `specs` and `retries`:
the current attempt number, the remaining fuel (`retries + 1` at the
top), and the handle currently stored in `geminiFileName` — the source
does not clear this variable when an attempt fails after a successful
upload, so a later upload failure best-effort deletes the stale handle,
which this model reproduces.  Returns the parsed result (or `none`) and
the trace of external side effects. -/
def runSingleChunkAux (jp : String → Option TranscriptionResult)
    (jr : String → Option String) (specs : Nat → AttemptSpec) (retries : Nat) :
    Nat → Nat → Option Nat → Option TranscriptionResult × List ChunkEvent
  | _, 0, _ => (none, [])
  | attempt, remaining + 1, stale =>
    match specs attempt with
    | .failUpload =>
      if attempt = retries then
        (none, ChunkEvent.upload attempt :: delEvents stale ++ [ChunkEvent.unlinkLocal])
      else
        let next := runSingleChunkAux jp jr specs retries (attempt + 1) remaining stale
        (next.1, ChunkEvent.upload attempt :: delEvents stale ++
          ChunkEvent.sleep (2 ^ attempt * 2000) :: next.2)
    | .failState _ =>
      if attempt = retries then
        (none, ChunkEvent.upload attempt :: delEvents (some attempt) ++ [ChunkEvent.unlinkLocal])
      else
        let next := runSingleChunkAux jp jr specs retries (attempt + 1) remaining (some attempt)
        (next.1, ChunkEvent.upload attempt :: delEvents (some attempt) ++
          ChunkEvent.sleep (2 ^ attempt * 2000) :: next.2)
    | .failGenerate =>
      if attempt = retries then
        (none, ChunkEvent.upload attempt :: delEvents (some attempt) ++ [ChunkEvent.unlinkLocal])
      else
        let next := runSingleChunkAux jp jr specs retries (attempt + 1) remaining (some attempt)
        (next.1, ChunkEvent.upload attempt :: delEvents (some attempt) ++
          ChunkEvent.sleep (2 ^ attempt * 2000) :: next.2)
    | .genOk raw =>
      let parsed := parseGeminiJson jp jr raw
      if accepts parsed then
        (parsed, [ChunkEvent.upload attempt, ChunkEvent.deleteRemote attempt, ChunkEvent.unlinkLocal])
      else if attempt = retries then
        (none, [ChunkEvent.upload attempt, ChunkEvent.deleteRemote attempt, ChunkEvent.unlinkLocal])
      else
        let next := runSingleChunkAux jp jr specs retries (attempt + 1) remaining none
        (next.1, ChunkEvent.upload attempt :: ChunkEvent.deleteRemote attempt ::
          ChunkEvent.sleep (2 ^ attempt * 2000) :: next.2)

/-- Embedding of `runSingleChunk(ai, filePath, displayName, mimeType,
retries)`: runs up to `retries + 1` attempts (the source default is
`retries = 2`), each driven by the outcome oracle `specs`. -/
def runSingleChunk (jp : String → Option TranscriptionResult)
    (jr : String → Option String) (specs : Nat → AttemptSpec)
    (retries : Nat) : Option TranscriptionResult × List ChunkEvent :=
  runSingleChunkAux jp jr specs retries 0 (retries + 1) none

/-- Recognizes a backoff sleep event. -/
def isSleepEvent : ChunkEvent → Bool
  | .sleep _ => true
  | _ => false

/-- Recognizes an upload event. -/
def isUploadEvent : ChunkEvent → Bool
  | .upload _ => true
  | _ => false

/-- The handle stored in `geminiFileName` after a failing attempt: an
upload failure leaves the previous value in place (the source never
clears it in its catch block), a post-upload failure leaves this
attempt's handle, and a rejected parse leaves `none` (the source clears
the variable right after its success-path delete). -/
def staleAfter : AttemptSpec → Nat → Option Nat → Option Nat
  | .failUpload, _, stale => stale
  | .failState _, a, _ => some a
  | .failGenerate, a, _ => some a
  | .genOk _, _, _ => none

/-- The events emitted by one failing attempt of `runSingleChunk` before
its retry decision: the upload call, plus the best-effort remote delete
(from the catch block for service failures, from the success path for a
rejected parse). -/
def failEvents : AttemptSpec → Nat → Option Nat → List ChunkEvent
  | .failUpload, a, stale => ChunkEvent.upload a :: delEvents stale
  | .failState _, a, _ => ChunkEvent.upload a :: delEvents (some a)
  | .failGenerate, a, _ => ChunkEvent.upload a :: delEvents (some a)
  | .genOk _, a, _ => [ChunkEvent.upload a, ChunkEvent.deleteRemote a]

/-- Whether an attempt outcome makes that attempt of `runSingleChunk` fail:
every service failure does, and a generation success whose parsed payload
is not accepted (absent, unrepairable, or an empty segment list) does as
well. -/
def attemptFails (jp : String → Option TranscriptionResult)
    (jr : String → Option String) : AttemptSpec → Bool
  | .genOk raw => !accepts (parseGeminiJson jp jr raw)
  | _ => true

/-- Result of the awaited task-store writes performed inside the guarded
block of `runGeminiTranscription`, sequenced in program order: the first
failing write aborts the sequence with its error (as the rejected
`updateTask` promise does), otherwise all writes succeed. -/
def seqWrites (w : Nat → Except String Unit) : List Nat → Except String Unit
  | [] => .ok ()
  | i :: rest =>
    match w i with
    | .error e => .error e
    | .ok _ => seqWrites w rest

/-- Embedding of the control flow of `runGeminiTranscription` around the
task store: the guarded block awaits, in program order, the progress
writes (two leading status messages, two per chunk, one before the merge
— `2 * n + 3` writes for `n` chunks, serialized here in program order;
`Promise.all` propagates the first rejection either way); a failing write
escapes to the top-level catch, which writes `status = failed` with the
error's message; only when every progress write succeeds does the merge
outcome `finalizeTask` decide the terminal write. -/
def runGeminiTranscription (w : Nat → Except String Unit)
    (results : List (Option TranscriptionResult)) : TerminalUpdate :=
  match seqWrites w (List.range (2 * results.length + 3)) with
  | .error e => .failed e
  | .ok _ => finalizeTask results

/-- A value read from the probe metadata's `format.duration` field: a
number, or something that is not a number. -/
inductive JsVal where
  | num (q : ℚ)
  | other
  deriving DecidableEq

/-- The possible outcomes of one `ffprobe` invocation, as observed by
`getAudioDuration` in `src/lib/audio-chunks.ts`: the `fluent-ffmpeg`
module is unavailable, the probe calls back with an error, or it calls
back with metadata whose `format.duration` field is `duration` (`none`
when missing). -/
inductive ProbeOutcome where
  | noFfmpeg
  | probeError (message : String)
  | metadata (duration : Option JsVal)
  deriving DecidableEq

/-- Embedding of `getAudioDuration(filePath)`: `null` when `fluent-ffmpeg`
is unavailable or the probe errors; otherwise the probed duration is
returned only when it is a number that is strictly positive
(`typeof dur === "number" && dur > 0`). -/
def getAudioDuration : ProbeOutcome → Option ℚ
  | .noFfmpeg => none
  | .probeError _ => none
  | .metadata none => none
  | .metadata (some .other) => none
  | .metadata (some (.num d)) => if 0 < d then some d else none

/-- A file produced by `splitAudioIntoChunks`: either the original source
file itself (the single-chunk case) or the physically materialized
sub-range of chunk index `i`, starting at `startSec` and lasting
`durationSec` (the arguments `setStartTime` / `setDuration` passed to
ffmpeg). -/
inductive ChunkFile where
  | original
  | chunk (i : Nat) (startSec durationSec : ℚ)
  deriving DecidableEq

/-- The duration argument a chunk file was cut with (`0` for the original
file, whose duration is not re-encoded). -/
def chunkFileDuration : ChunkFile → ℚ
  | .original => 0
  | .chunk _ _ d => d

/-- Embedding of `splitAudioIntoChunks(originalPath)`: the original file is
returned unsplit when `fluent-ffmpeg` is unavailable, when the duration is
unknown, or when it is at most `CHUNK_DURATION_SEC`; otherwise
`ceil(duration / CHUNK_DURATION_SEC)` chunks are cut, chunk `i` starting
at `i * CHUNK_DURATION_SEC` with duration
`min(CHUNK_DURATION_SEC, duration - start)`. -/
def splitAudioIntoChunks (probe : ProbeOutcome) : List ChunkFile :=
  match probe with
  | .noFfmpeg => [ChunkFile.original]
  | _ =>
    match getAudioDuration probe with
    | none => [ChunkFile.original]
    | some d =>
      if d ≤ (CHUNK_DURATION_SEC : ℚ) then [ChunkFile.original]
      else
        (List.range (⌈d / (CHUNK_DURATION_SEC : ℚ)⌉).toNat).map fun i =>
          ChunkFile.chunk i (i * (CHUNK_DURATION_SEC : ℚ))
            (min (CHUNK_DURATION_SEC : ℚ) (d - i * (CHUNK_DURATION_SEC : ℚ)))

theorem digitsVal_append_singleton (ds : List Nat) (d : Nat) :
    digitsVal (ds ++ [d]) = digitsVal ds * 10 + d := by
  simp [digitsVal, List.foldl_append]

theorem digitsVal_natDigitsAux : ∀ (f n : Nat), n < f →
    digitsVal (natDigitsAux f n) = n := by
  intro f
  induction f with
  | zero => omega
  | succ f ih =>
    intro n hn
    rw [natDigitsAux]
    split
    · simp [digitsVal]
    · rename_i h10
      have hdiv : n / 10 < n := Nat.div_lt_self (by omega) (by omega)
      rw [digitsVal_append_singleton, ih (n / 10) (by omega)]
      omega

theorem digitsVal_natDigits (n : Nat) : digitsVal (natDigits n) = n :=
  digitsVal_natDigitsAux (n + 1) n (Nat.lt_succ_self n)

theorem natDigitsAux_lt_ten : ∀ (f n : Nat), n < f →
    ∀ d ∈ natDigitsAux f n, d < 10 := by
  intro f
  induction f with
  | zero => omega
  | succ f ih =>
    intro n hn d hd
    rw [natDigitsAux] at hd
    split at hd
    · simp at hd; omega
    · rename_i h10
      have hdiv : n / 10 < n := Nat.div_lt_self (by omega) (by omega)
      rcases List.mem_append.mp hd with h | h
      · exact ih (n / 10) (by omega) d h
      · simp at h; omega

theorem natDigits_lt_ten (n : Nat) : ∀ d ∈ natDigits n, d < 10 :=
  natDigitsAux_lt_ten (n + 1) n (Nat.lt_succ_self n)

theorem natDigitsAux_ne_nil : ∀ (f n : Nat), n < f → natDigitsAux f n ≠ [] := by
  intro f
  induction f with
  | zero => omega
  | succ f _ =>
    intro n _
    rw [natDigitsAux]
    split <;> simp

theorem natDigits_ne_nil (n : Nat) : natDigits n ≠ [] :=
  natDigitsAux_ne_nil (n + 1) n (Nat.lt_succ_self n)

theorem digitChar_isDigit (d : Nat) (h : d < 10) : (Nat.digitChar d).isDigit = true := by
  interval_cases d <;> decide

theorem charVal_digitChar (d : Nat) (h : d < 10) : charVal (Nat.digitChar d) = d := by
  interval_cases d <;> decide

theorem padTwo_ne_nil (n : Nat) : padTwo n ≠ [] := by
  have := natDigits_ne_nil n
  simp only [padTwo]
  intro h
  rcases List.append_eq_nil.mp h with ⟨_, h2⟩
  exact this (List.map_eq_nil_iff.mp h2)

theorem padTwo_all_digit (n : Nat) : (padTwo n).all Char.isDigit = true := by
  simp only [padTwo, List.all_append, Bool.and_eq_true, List.all_eq_true]
  constructor
  · intro c hc
    rw [List.eq_of_mem_replicate hc]
    decide
  · intro c hc
    rcases List.mem_map.mp hc with ⟨d, hd, rfl⟩
    exact digitChar_isDigit d (natDigits_lt_ten n d hd)

theorem digitsVal_replicate_zero (k : Nat) (ds : List Nat) :
    digitsVal (List.replicate k 0 ++ ds) = digitsVal ds := by
  induction k with
  | zero => simp
  | succ k ih =>
    rw [List.replicate_succ, List.cons_append]
    simpa [digitsVal] using ih

theorem jsNumberChars_padTwo (n : Nat) : jsNumberChars (padTwo n) = some n := by
  have hne : (padTwo n).isEmpty = false := by
    rcases h : padTwo n with _ | ⟨c, t⟩
    · exact absurd h (padTwo_ne_nil n)
    · rfl
  simp only [jsNumberChars, hne, padTwo_all_digit, Bool.false_eq_true, if_false, if_true,
    Option.some.injEq]
  simp only [padTwo, List.map_append, List.map_map]
  have h1 : List.map charVal (List.replicate (2 - ((natDigits n).map Nat.digitChar).length) '0') =
      List.replicate (2 - ((natDigits n).map Nat.digitChar).length) 0 := by
    rw [List.map_replicate]
    rfl
  have h2 : List.map (charVal ∘ Nat.digitChar) (natDigits n) = natDigits n := by
    rw [show natDigits n = List.map id (natDigits n) from (List.map_id _).symm]
    rw [List.map_map]
    apply List.map_congr_left
    intro d hd
    exact charVal_digitChar d (natDigits_lt_ten n d hd)
  rw [h1, h2, digitsVal_replicate_zero, digitsVal_natDigits]

theorem isDigit_not_ws (c : Char) (h : c.isDigit = true) : isJsWhitespace c = false := by
  simp only [isJsWhitespace, Bool.or_eq_false_iff, decide_eq_false_iff_not]
  refine ⟨⟨⟨?_, ?_⟩, ?_⟩, ?_⟩ <;> rintro rfl <;> exact absurd h (by decide)

theorem colon_not_mem_of_all_digit (l : List Char) (h : l.all Char.isDigit = true) :
    ':' ∉ l := by
  intro hmem
  have := List.all_eq_true.mp h _ hmem
  exact absurd this (by decide)

theorem splitOnChar_of_not_mem (sep : Char) (l : List Char) (h : sep ∉ l) :
    splitOnChar sep l = [l] := by
  induction l with
  | nil => rfl
  | cons c t ih =>
    have hc : ¬c = sep := fun hh => h (hh ▸ List.mem_cons_self c t)
    have ht : sep ∉ t := fun hh => h (List.mem_cons_of_mem c hh)
    rw [splitOnChar]
    simp only [hc, if_false, ih ht]

theorem splitOnChar_append (sep : Char) (a b : List Char) (h : sep ∉ a) :
    splitOnChar sep (a ++ sep :: b) = a :: splitOnChar sep b := by
  induction a with
  | nil => simp [splitOnChar]
  | cons c t ih =>
    have hc : ¬c = sep := fun hh => h (hh ▸ List.mem_cons_self c t)
    have ht : sep ∉ t := fun hh => h (List.mem_cons_of_mem c hh)
    rw [List.cons_append, splitOnChar]
    simp only [hc, if_false, ih ht]

theorem head_mem_of_head? {α : Type} (l : List α) (c : α) (h : l.head? = some c) : c ∈ l := by
  cases l with
  | nil => simp at h
  | cons a t => simp at h; simp [h]

theorem getLast_mem_of_getLast? {α : Type} (l : List α) (c : α) (h : l.getLast? = some c) :
    c ∈ l := by
  induction l with
  | nil => simp at h
  | cons a t ih =>
    cases t with
    | nil => simp [List.getLast?] at h; simp [h]
    | cons b u =>
      rw [List.getLast?_cons_cons] at h
      exact List.mem_cons_of_mem a (ih h)

theorem trimChars_eq_self (l : List Char)
    (h1 : ∀ c, l.head? = some c → isJsWhitespace c = false)
    (h2 : ∀ c, l.getLast? = some c → isJsWhitespace c = false) :
    trimChars l = l := by
  cases l with
  | nil => rfl
  | cons a t =>
    have ha : isJsWhitespace a = false := h1 a rfl
    have hdrop : (a :: t).dropWhile isJsWhitespace = a :: t := by
      rw [List.dropWhile_cons, ha]
      simp
    rw [trimChars, hdrop]
    rcases hrev : (a :: t).reverse with _ | ⟨c, s⟩
    · simp at hrev
    · have hc : (a :: t).getLast? = some c := by
        rw [← List.head?_reverse, hrev]
        rfl
      have hcws : isJsWhitespace c = false := h2 c hc
      rw [List.dropWhile_cons, hcws]
      simp only [Bool.false_eq_true, if_false]
      rw [← hrev, List.reverse_reverse]

theorem not_ws_of_mem_digits (cs : List Char) (h : cs.all Char.isDigit = true)
    (c : Char) (hc : c ∈ cs) : isJsWhitespace c = false :=
  isDigit_not_ws c (List.all_eq_true.mp h _ hc)

theorem isDigitString_ne_nil (cs : List Char) (h : isDigitString cs = true) : cs ≠ [] := by
  simp only [isDigitString, Bool.and_eq_true, Bool.not_eq_true'] at h
  intro hnil
  subst hnil
  simp at h

theorem isDigitString_all (cs : List Char) (h : isDigitString cs = true) :
    cs.all Char.isDigit = true := by
  simp only [isDigitString, Bool.and_eq_true, Bool.not_eq_true'] at h
  exact h.2

theorem jsNumberChars_of_digitString (cs : List Char) (h : isDigitString cs = true) :
    jsNumberChars cs = some (digitsVal (cs.map charVal)) := by
  simp only [isDigitString, Bool.and_eq_true, Bool.not_eq_true'] at h
  simp only [jsNumberChars, h.1, h.2, Bool.false_eq_true, if_false, if_true]

theorem getLast?_append_concat {α : Type} (x q : List α) (c : α) :
    (x ++ (q ++ [c])).getLast? = some c := by
  rw [← List.append_assoc]
  simp [List.getLast?_append]

theorem renderTimecode_data (T : Nat) : (renderTimecode T).data =
    padTwo (T / 3600) ++ ':' :: (padTwo (T % 3600 / 60) ++ ':' :: padTwo (T % 60)) := rfl

theorem trimChars_renderTimecode (T : Nat) :
    trimChars (renderTimecode T).data = (renderTimecode T).data := by
  apply trimChars_eq_self
  · intro c hc
    rw [renderTimecode_data] at hc
    rcases hp : padTwo (T / 3600) with _ | ⟨c0, t0⟩
    · exact absurd hp (padTwo_ne_nil _)
    · rw [hp, List.cons_append, List.head?_cons, Option.some.injEq] at hc
      rw [← hc]
      exact not_ws_of_mem_digits _ (padTwo_all_digit (T / 3600)) c0
        (by rw [hp]; exact List.mem_cons_self _ _)
  · intro c hc
    rw [renderTimecode_data] at hc
    rcases List.eq_nil_or_concat (padTwo (T % 60)) with hp | ⟨q, c2, hp⟩
    · exact absurd hp (padTwo_ne_nil _)
    · rw [List.concat_eq_append] at hp
      rw [hp] at hc
      rw [show padTwo (T / 3600) ++ ':' :: (padTwo (T % 3600 / 60) ++ ':' :: (q ++ [c2])) =
          (padTwo (T / 3600) ++ ':' :: (padTwo (T % 3600 / 60) ++ [':']) ++ q) ++ [c2] by
        simp] at hc
      rw [List.getLast?_concat, Option.some.injEq] at hc
      rw [← hc]
      exact not_ws_of_mem_digits _ (padTwo_all_digit (T % 60)) c2
        (by rw [hp]; exact List.mem_append.mpr (Or.inr (List.mem_singleton_self _)))

theorem splitOnChar_renderTimecode (T : Nat) :
    splitOnChar ':' (renderTimecode T).data =
      [padTwo (T / 3600), padTwo (T % 3600 / 60), padTwo (T % 60)] := by
  rw [renderTimecode_data]
  rw [splitOnChar_append ':' _ _ (colon_not_mem_of_all_digit _ (padTwo_all_digit _))]
  rw [splitOnChar_append ':' _ _ (colon_not_mem_of_all_digit _ (padTwo_all_digit _))]
  rw [splitOnChar_of_not_mem ':' _ (colon_not_mem_of_all_digit _ (padTwo_all_digit _))]

theorem addOffset_render (T b : Nat) :
    addOffsetToTimestamp (renderTimecode T) b = renderTimecode (T + b) := by
  have hdata : (jsTrim (renderTimecode T)).data = (renderTimecode T).data :=
    trimChars_renderTimecode T
  rw [addOffsetToTimestamp, hdata, splitOnChar_renderTimecode]
  simp only [List.map_cons, List.map_nil, jsNumberChars_padTwo, List.getD_cons_zero,
    List.getD_cons_succ]
  congr 1
  omega

theorem addOffset_of_valid (t : String) (h : IsValidTimecode t) :
    ∃ T, ∀ o, addOffsetToTimestamp t o = renderTimecode (T + o) := by
  obtain ⟨a, b, c, hsplit, ha, hb, hc⟩ := h
  refine ⟨digitsVal (a.map charVal) * 3600 + digitsVal (b.map charVal) * 60 +
    digitsVal (c.map charVal), fun o => ?_⟩
  rw [addOffsetToTimestamp, hsplit]
  simp only [List.map_cons, List.map_nil, jsNumberChars_of_digitString a ha,
    jsNumberChars_of_digitString b hb, jsNumberChars_of_digitString c hc,
    List.getD_cons_zero, List.getD_cons_succ]

/-- Claim C5: for every valid `HH:MM:SS` timecode `t` and all non-negative
integers `a` and `b`, offsetting `t` by `a` and then the result by `b`
yields the same string as offsetting `t` by `a + b`; moreover the result
of an offset is always rendered by `renderTimecode`, i.e. as
colon-separated zero-padded two-digit (or longer for hours) fields with
no rollover cap. -/
theorem timestamp_offset_composable (t : String) (a b : Nat) (h : IsValidTimecode t) :
    addOffsetToTimestamp (addOffsetToTimestamp t a) b = addOffsetToTimestamp t (a + b) ∧
    ∃ T, addOffsetToTimestamp t a = renderTimecode (T + a) := by
  obtain ⟨T, hT⟩ := addOffset_of_valid t h
  refine ⟨?_, ⟨T, hT a⟩⟩
  rw [hT a, addOffset_render, hT (a + b), Nat.add_assoc]

/-- Witness for C5 at the timecode `10:59:30` with offsets `86445` and `15`:
the composed offsets agree with the single offset `86460`, and the
rendered result has an hour field beyond `23` (no rollover cap). -/
theorem timestamp_offset_composable_witness :
    addOffsetToTimestamp (addOffsetToTimestamp ("10:59:30") 86445) 15 =
      addOffsetToTimestamp ("10:59:30") 86460 ∧
    addOffsetToTimestamp ("10:59:30") 86460 = "35:00:30" := by
  constructor
  · exact (timestamp_offset_composable ("10:59:30") 86445 15
      ⟨['1', '0'], ['5', '9'], ['3', '0'], by decide, by decide, by decide, by decide⟩).1
  · decide

/-- Claim C10: a colon-separated input with fewer than three components is
filled from the left: a two-component digit string `a:b` is read as `a`
hours and `b` minutes, a single digit component `a` as `a` hours, and the
components are converted numerically with no check that minutes or
seconds stay below `60`. -/
theorem addOffset_short_forms (csA csB : List Char) (o : Nat)
    (hA : isDigitString csA = true) (hB : isDigitString csB = true) :
    addOffsetToTimestamp (String.mk (csA ++ ':' :: csB)) o =
      renderTimecode (digitsVal (csA.map charVal) * 3600 + digitsVal (csB.map charVal) * 60 + o) ∧
    addOffsetToTimestamp (String.mk csA) o =
      renderTimecode (digitsVal (csA.map charVal) * 3600 + o) := by
  obtain ⟨a0, ta, hcsA⟩ := List.exists_cons_of_ne_nil (isDigitString_ne_nil csA hA)
  obtain ⟨qb, cb, hcsB⟩ := (List.eq_nil_or_concat csB).resolve_left (isDigitString_ne_nil csB hB)
  obtain ⟨qa, ca, hcsA2⟩ := (List.eq_nil_or_concat csA).resolve_left (isDigitString_ne_nil csA hA)
  rw [List.concat_eq_append] at hcsB hcsA2
  constructor
  · have htrim : trimChars (csA ++ ':' :: csB) = csA ++ ':' :: csB := by
      apply trimChars_eq_self
      · intro c hc
        rw [hcsA, List.cons_append, List.head?_cons, Option.some.injEq] at hc
        rw [← hc]
        exact not_ws_of_mem_digits _ (isDigitString_all csA hA) a0
          (by rw [hcsA]; exact List.mem_cons_self _ _)
      · intro c hc
        rw [hcsB, show csA ++ ':' :: (qb ++ [cb]) = (csA ++ ':' :: qb) ++ [cb] by simp,
          List.getLast?_concat, Option.some.injEq] at hc
        rw [← hc]
        exact not_ws_of_mem_digits _ (isDigitString_all csB hB) cb
          (by rw [hcsB]; exact List.mem_append.mpr (Or.inr (List.mem_singleton_self _)))
    have hsplit : splitOnChar ':' (csA ++ ':' :: csB) = [csA, csB] := by
      rw [splitOnChar_append ':' _ _ (colon_not_mem_of_all_digit _ (isDigitString_all csA hA))]
      rw [splitOnChar_of_not_mem ':' _ (colon_not_mem_of_all_digit _ (isDigitString_all csB hB))]
    rw [addOffsetToTimestamp]
    rw [show (jsTrim (String.mk (csA ++ ':' :: csB))).data = csA ++ ':' :: csB from htrim]
    rw [hsplit]
    simp only [List.map_cons, List.map_nil,
      jsNumberChars_of_digitString csA hA, jsNumberChars_of_digitString csB hB,
      List.getD_eq_getD_get?, List.get?_cons_zero, List.get?_cons_succ, List.get?_nil,
      Option.getD_some, Option.getD_none]
    rw [Nat.add_zero]
  · have htrim : trimChars csA = csA := by
      apply trimChars_eq_self
      · intro c hc
        rw [hcsA, List.head?_cons, Option.some.injEq] at hc
        rw [← hc]
        exact not_ws_of_mem_digits _ (isDigitString_all csA hA) a0
          (by rw [hcsA]; exact List.mem_cons_self _ _)
      · intro c hc
        rw [hcsA2, List.getLast?_concat, Option.some.injEq] at hc
        rw [← hc]
        exact not_ws_of_mem_digits _ (isDigitString_all csA hA) ca
          (by rw [hcsA2]; exact List.mem_append.mpr (Or.inr (List.mem_singleton_self _)))
    have hsplit : splitOnChar ':' csA = [csA] :=
      splitOnChar_of_not_mem ':' _ (colon_not_mem_of_all_digit _ (isDigitString_all csA hA))
    rw [addOffsetToTimestamp]
    rw [show (jsTrim (String.mk csA)).data = csA from htrim]
    rw [hsplit]
    simp only [List.map_cons, List.map_nil, jsNumberChars_of_digitString csA hA,
      List.getD_eq_getD_get?, List.get?_cons_zero, List.get?_cons_succ, List.get?_nil,
      Option.getD_some, Option.getD_none]
    exact congrArg renderTimecode (by omega)

/-- Witness for C10: `1:99` offset by `0` is read as 1 hour and 99 minutes,
rendering as `02:39:00`, and `7` offset by `30` is read as 7 hours. -/
theorem addOffset_short_forms_witness :
    addOffsetToTimestamp ("1:99") 0 = "02:39:00" ∧
    addOffsetToTimestamp ("7") 30 = "07:00:30" := by
  have h1 := addOffset_short_forms ['1'] ['9', '9'] 0 (by decide) (by decide)
  have h2 := addOffset_short_forms ['7'] ['9'] 30 (by decide) (by decide)
  constructor
  · rw [show ("1:99" : String) = String.mk (['1'] ++ ':' :: ['9', '9']) from rfl, h1.1]
    decide
  · rw [show ("7" : String) = String.mk ['7'] from rfl, h2.2]
    decide

/-- Claim C9: probing the audio duration fails soft and never raises: it
yields `none` when the probe library is unavailable or probing errors,
and also whenever the probed `format.duration` value is missing,
non-numeric, or not strictly positive, so every non-`none` result of
`getAudioDuration` is a strictly positive number. -/
theorem getAudioDuration_fail_soft :
    getAudioDuration ProbeOutcome.noFfmpeg = none ∧
    (∀ msg, getAudioDuration (ProbeOutcome.probeError msg) = none) ∧
    getAudioDuration (ProbeOutcome.metadata none) = none ∧
    getAudioDuration (ProbeOutcome.metadata (some JsVal.other)) = none ∧
    (∀ d : ℚ, d ≤ 0 → getAudioDuration (ProbeOutcome.metadata (some (JsVal.num d))) = none) ∧
    (∀ o d, getAudioDuration o = some d → 0 < d) := by
  refine ⟨rfl, fun _ => rfl, rfl, rfl, ?_, ?_⟩
  · intro d hd
    simp only [getAudioDuration, not_lt.mpr hd, if_false]
  · intro o d h
    cases o with
    | noFfmpeg => exact absurd h (by simp [getAudioDuration])
    | probeError m => exact absurd h (by simp [getAudioDuration])
    | metadata md =>
      match md with
      | none => exact absurd h (by simp [getAudioDuration])
      | some JsVal.other => exact absurd h (by simp [getAudioDuration])
      | some (JsVal.num q) =>
        rw [getAudioDuration] at h
        split at h
        · rename_i hq
          cases h
          exact hq
        · exact absurd h (by simp)

/-- Witness for C9: a negative probed duration yields `none`, and a probe
returning `7` yields a strictly positive duration. -/
theorem getAudioDuration_fail_soft_witness :
    getAudioDuration (ProbeOutcome.metadata (some (JsVal.num (-2)))) = none ∧ (0 : ℚ) < 7 := by
  constructor
  · exact getAudioDuration_fail_soft.2.2.2.2.1 (-2) (by norm_num)
  · exact getAudioDuration_fail_soft.2.2.2.2.2
      (ProbeOutcome.metadata (some (JsVal.num 7))) 7 (by norm_num [getAudioDuration])

theorem sum_min_chunks (C : ℚ) (hC : 0 < C) : ∀ (n : Nat) (d : ℚ),
    C * n < d → d ≤ C * (n + 1) →
    ((List.range (n + 1)).map (fun (i : ℕ) => min C (d - (i : ℚ) * C))).sum = d := by
  intro n
  induction n with
  | zero =>
    intro d h1 h2
    simp only [Nat.cast_zero, mul_zero, Nat.cast_one, mul_one, zero_add] at h1 h2
    rw [show List.range 1 = [0] by decide]
    simp only [List.map_cons, List.map_nil, List.sum_cons, List.sum_nil,
      Nat.cast_zero, zero_mul, sub_zero, add_zero]
    exact min_eq_right h2
  | succ n ih =>
    intro d h1 h2
    rw [List.range_succ_eq_map, List.map_cons, List.map_map, List.sum_cons]
    have hcomp : (List.range (n + 1)).map ((fun (i : ℕ) => min C (d - (i : ℚ) * C)) ∘ Nat.succ) =
        (List.range (n + 1)).map fun (i : ℕ) => min C ((d - C) - (i : ℚ) * C) := by
      apply List.map_congr_left
      intro i _
      simp only [Function.comp_apply, Nat.cast_succ]
      congr 1
      ring
    rw [hcomp]
    have hbig : C ≤ d := by
      have hx : (0 : ℚ) ≤ (n : ℚ) := Nat.cast_nonneg n
      push_cast at h1
      nlinarith [mul_nonneg (le_of_lt hC) hx]
    have ih2 := ih (d - C) (by push_cast at h1 ⊢; linarith) (by push_cast at h2 ⊢; linarith)
    rw [ih2]
    simp only [Nat.cast_zero, zero_mul, sub_zero]
    rw [min_eq_left hbig]
    ring

/-- Claim C2: when the probed duration `d` exceeds the configured chunk
size, the splitter produces `ceil(d / CHUNK_DURATION_SEC)` chunks whose
start offsets are `0, C, 2C, …` and whose durations are
`min(C, d - i * C)`, summing exactly to `d`; the last chunk\'s duration is
`d - floor(d / C) * C`, or `C` when `d` is an exact multiple of `C`.
When the duration is unknown, or at most the chunk size, exactly one
chunk — the whole source at offset `0` — is produced. -/
theorem splitAudioIntoChunks_coverage (d : ℚ) (hd : (CHUNK_DURATION_SEC : ℚ) < d) :
    (splitAudioIntoChunks (ProbeOutcome.metadata (some (JsVal.num d)))).length =
      (⌈d / (CHUNK_DURATION_SEC : ℚ)⌉).toNat ∧
    (∀ i, i < (⌈d / (CHUNK_DURATION_SEC : ℚ)⌉).toNat →
      (splitAudioIntoChunks (ProbeOutcome.metadata (some (JsVal.num d)))).get? i =
        some (ChunkFile.chunk i ((i : ℚ) * (CHUNK_DURATION_SEC : ℚ))
          (min ((CHUNK_DURATION_SEC : ℚ)) (d - (i : ℚ) * (CHUNK_DURATION_SEC : ℚ))))) ∧
    ((splitAudioIntoChunks (ProbeOutcome.metadata (some (JsVal.num d)))).map
      chunkFileDuration).sum = d ∧
    (splitAudioIntoChunks (ProbeOutcome.metadata (some (JsVal.num d)))).getLast? =
      some (ChunkFile.chunk ((⌈d / (CHUNK_DURATION_SEC : ℚ)⌉).toNat - 1)
        ((((⌈d / (CHUNK_DURATION_SEC : ℚ)⌉).toNat - 1 : ℕ) : ℚ) * (CHUNK_DURATION_SEC : ℚ))
        (d - (((⌈d / (CHUNK_DURATION_SEC : ℚ)⌉).toNat - 1 : ℕ) : ℚ) * (CHUNK_DURATION_SEC : ℚ))) ∧
    (d = (⌊d / (CHUNK_DURATION_SEC : ℚ)⌋ : ℚ) * (CHUNK_DURATION_SEC : ℚ) →
      d - (((⌈d / (CHUNK_DURATION_SEC : ℚ)⌉).toNat - 1 : ℕ) : ℚ) * (CHUNK_DURATION_SEC : ℚ) =
        (CHUNK_DURATION_SEC : ℚ)) ∧
    (d ≠ (⌊d / (CHUNK_DURATION_SEC : ℚ)⌋ : ℚ) * (CHUNK_DURATION_SEC : ℚ) →
      d - (((⌈d / (CHUNK_DURATION_SEC : ℚ)⌉).toNat - 1 : ℕ) : ℚ) * (CHUNK_DURATION_SEC : ℚ) =
        d - (⌊d / (CHUNK_DURATION_SEC : ℚ)⌋ : ℚ) * (CHUNK_DURATION_SEC : ℚ)) ∧
    (∀ probe2, getAudioDuration probe2 = none →
      splitAudioIntoChunks probe2 = [ChunkFile.original]) ∧
    (∀ d2 : ℚ, 0 < d2 → d2 ≤ (CHUNK_DURATION_SEC : ℚ) →
      splitAudioIntoChunks (ProbeOutcome.metadata (some (JsVal.num d2))) = [ChunkFile.original]) := by
  have hC : (0 : ℚ) < (CHUNK_DURATION_SEC : ℚ) := by norm_num [CHUNK_DURATION_SEC]
  have hdpos : (0 : ℚ) < d := lt_trans hC hd
  have hget : getAudioDuration (ProbeOutcome.metadata (some (JsVal.num d))) = some d := by
    rw [getAudioDuration, if_pos hdpos]
  have hnotle : ¬d ≤ (CHUNK_DURATION_SEC : ℚ) := not_le.mpr hd
  have hsplit : splitAudioIntoChunks (ProbeOutcome.metadata (some (JsVal.num d))) =
      (List.range (⌈d / (CHUNK_DURATION_SEC : ℚ)⌉).toNat).map (fun (i : ℕ) =>
        ChunkFile.chunk i ((i : ℚ) * (CHUNK_DURATION_SEC : ℚ))
          (min ((CHUNK_DURATION_SEC : ℚ)) (d - (i : ℚ) * (CHUNK_DURATION_SEC : ℚ)))) := by
    simp only [splitAudioIntoChunks, hget, hnotle, if_false]
  have hm1 : 1 < ⌈d / (CHUNK_DURATION_SEC : ℚ)⌉ := by
    rw [Int.lt_ceil]
    push_cast
    rw [lt_div_iff hC]
    linarith
  have hmpos : 0 ≤ ⌈d / (CHUNK_DURATION_SEC : ℚ)⌉ := by omega
  have hncast : (((⌈d / (CHUNK_DURATION_SEC : ℚ)⌉).toNat : ℤ)) =
      ⌈d / (CHUNK_DURATION_SEC : ℚ)⌉ := Int.toNat_of_nonneg hmpos
  have hcastQ : (((⌈d / (CHUNK_DURATION_SEC : ℚ)⌉).toNat : ℕ) : ℚ) =
      ((⌈d / (CHUNK_DURATION_SEC : ℚ)⌉ : ℤ) : ℚ) := by
    exact_mod_cast congrArg (fun z : ℤ => (z : ℚ)) hncast
  have hn2 : 2 ≤ (⌈d / (CHUNK_DURATION_SEC : ℚ)⌉).toNat := by omega
  have hcast1 : ((((⌈d / (CHUNK_DURATION_SEC : ℚ)⌉).toNat - 1 : ℕ)) : ℚ) =
      ((⌈d / (CHUNK_DURATION_SEC : ℚ)⌉ : ℤ) : ℚ) - 1 := by
    rw [Nat.cast_sub (by omega : 1 ≤ (⌈d / (CHUNK_DURATION_SEC : ℚ)⌉).toNat)]
    rw [hcastQ]
    norm_num
  have hupper : d ≤ (CHUNK_DURATION_SEC : ℚ) * (((⌈d / (CHUNK_DURATION_SEC : ℚ)⌉).toNat : ℕ) : ℚ) := by
    have h1 : d / (CHUNK_DURATION_SEC : ℚ) ≤ ((⌈d / (CHUNK_DURATION_SEC : ℚ)⌉ : ℤ) : ℚ) :=
      Int.le_ceil _
    rw [← hcastQ] at h1
    rw [div_le_iff hC] at h1
    linarith
  have hlower : (CHUNK_DURATION_SEC : ℚ) *
      ((((⌈d / (CHUNK_DURATION_SEC : ℚ)⌉).toNat : ℕ) : ℚ) - 1) < d := by
    have h1 : ((⌈d / (CHUNK_DURATION_SEC : ℚ)⌉ - 1 : ℤ) : ℚ) < d / (CHUNK_DURATION_SEC : ℚ) := by
      rw [← Int.lt_ceil]
      omega
    have h2 : ((⌈d / (CHUNK_DURATION_SEC : ℚ)⌉ - 1 : ℤ) : ℚ) =
        (((⌈d / (CHUNK_DURATION_SEC : ℚ)⌉).toNat : ℕ) : ℚ) - 1 := by
      rw [hcastQ]
      push_cast
      ring
    rw [h2, lt_div_iff hC] at h1
    linarith
  rw [hcastQ] at hupper hlower
  refine ⟨?_, ?_, ?_, ?_, ?_, ?_, ?_, ?_⟩
  · rw [hsplit, List.length_map, List.length_range]
  · intro i hi
    rw [hsplit, List.get?_map, List.get?_range hi]
    rfl
  · rw [hsplit, List.map_map]
    have hcomp : (chunkFileDuration ∘ fun (i : ℕ) =>
        ChunkFile.chunk i ((i : ℚ) * (CHUNK_DURATION_SEC : ℚ))
          (min ((CHUNK_DURATION_SEC : ℚ)) (d - (i : ℚ) * (CHUNK_DURATION_SEC : ℚ)))) =
        fun (i : ℕ) => min ((CHUNK_DURATION_SEC : ℚ)) (d - (i : ℚ) * (CHUNK_DURATION_SEC : ℚ)) := by
      funext i
      rfl
    rw [hcomp]
    have hrange : (⌈d / (CHUNK_DURATION_SEC : ℚ)⌉).toNat =
        ((⌈d / (CHUNK_DURATION_SEC : ℚ)⌉).toNat - 1) + 1 := by omega
    rw [hrange]
    apply sum_min_chunks _ hC
    · rw [hcast1]
      linarith [hlower]
    · rw [hcast1]
      linarith [hupper]
  · rw [hsplit]
    have hrange : List.range (⌈d / (CHUNK_DURATION_SEC : ℚ)⌉).toNat =
        List.range ((⌈d / (CHUNK_DURATION_SEC : ℚ)⌉).toNat - 1) ++
          [(⌈d / (CHUNK_DURATION_SEC : ℚ)⌉).toNat - 1] := by
      rw [← List.range_succ]
      congr 1
      omega
    rw [hrange, List.map_append, List.map_cons, List.map_nil, List.getLast?_concat]
    congr 2
    apply min_eq_right
    rw [hcast1]
    linarith [hupper]
  · intro hmul
    have hdc : d / (CHUNK_DURATION_SEC : ℚ) = ((⌊d / (CHUNK_DURATION_SEC : ℚ)⌋ : ℤ) : ℚ) := by
      have h0 : d / (CHUNK_DURATION_SEC : ℚ) =
          (((⌊d / (CHUNK_DURATION_SEC : ℚ)⌋ : ℤ) : ℚ) * (CHUNK_DURATION_SEC : ℚ)) /
            (CHUNK_DURATION_SEC : ℚ) := by
        rw [← hmul]
      rw [h0, mul_div_assoc, div_self (ne_of_gt hC), mul_one, Int.floor_intCast]
    have hceq : ⌈d / (CHUNK_DURATION_SEC : ℚ)⌉ = ⌊d / (CHUNK_DURATION_SEC : ℚ)⌋ := by
      rw [hdc, Int.ceil_intCast, Int.floor_intCast]
    rw [hcast1, hceq]
    linarith [hmul]
  · intro hne
    have hflt : ((⌊d / (CHUNK_DURATION_SEC : ℚ)⌋ : ℤ) : ℚ) < d / (CHUNK_DURATION_SEC : ℚ) := by
      rcases lt_or_eq_of_le (Int.floor_le (d / (CHUNK_DURATION_SEC : ℚ))) with h | h
      · exact h
      · exfalso
        apply hne
        rw [h]
        field_simp
    have hlt : ⌊d / (CHUNK_DURATION_SEC : ℚ)⌋ < ⌈d / (CHUNK_DURATION_SEC : ℚ)⌉ :=
      Int.lt_ceil.mpr hflt
    have hle : ⌈d / (CHUNK_DURATION_SEC : ℚ)⌉ ≤ ⌊d / (CHUNK_DURATION_SEC : ℚ)⌋ + 1 :=
      Int.ceil_le_floor_add_one _
    have hceq : ⌈d / (CHUNK_DURATION_SEC : ℚ)⌉ = ⌊d / (CHUNK_DURATION_SEC : ℚ)⌋ + 1 := by
      omega
    rw [hcast1, hceq]
    push_cast
    ring_nf
  · intro probe2 hp
    cases probe2 with
    | noFfmpeg => rfl
    | probeError m => simp [splitAudioIntoChunks, hp]
    | metadata md => simp [splitAudioIntoChunks, hp]
  · intro d2 hpos hle
    have hg2 : getAudioDuration (ProbeOutcome.metadata (some (JsVal.num d2))) = some d2 := by
      rw [getAudioDuration, if_pos hpos]
    simp only [splitAudioIntoChunks, hg2, if_pos hle]

/-- Witness for C2 at the claimed scenario, a `1500` second source with
`600` second chunks: three chunks are produced, their durations sum to
`1500`, and since `1500` is not an exact multiple of `600` the last chunk
lasts `1500 - floor(1500 / 600) * 600` seconds; an unprobeable source
stays unsplit. -/
theorem splitAudioIntoChunks_coverage_witness :
    (splitAudioIntoChunks (ProbeOutcome.metadata (some (JsVal.num 1500)))).length = 3 ∧
    ((splitAudioIntoChunks (ProbeOutcome.metadata (some (JsVal.num 1500)))).map
      chunkFileDuration).sum = 1500 ∧
    (1500 : ℚ) - (((⌈(1500 : ℚ) / (CHUNK_DURATION_SEC : ℚ)⌉).toNat - 1 : ℕ) : ℚ) *
      (CHUNK_DURATION_SEC : ℚ) =
      1500 - (⌊(1500 : ℚ) / (CHUNK_DURATION_SEC : ℚ)⌋ : ℚ) * (CHUNK_DURATION_SEC : ℚ) ∧
    splitAudioIntoChunks ProbeOutcome.noFfmpeg = [ChunkFile.original] := by
  have hd : (CHUNK_DURATION_SEC : ℚ) < 1500 := by norm_num [CHUNK_DURATION_SEC]
  have h := splitAudioIntoChunks_coverage 1500 hd
  have hceil : (⌈(1500 : ℚ) / (CHUNK_DURATION_SEC : ℚ)⌉ : ℤ) = 3 := by
    rw [show ((CHUNK_DURATION_SEC : ℚ)) = 600 by norm_num [CHUNK_DURATION_SEC]]
    rw [Int.ceil_eq_iff] <;> norm_num
  refine ⟨?_, h.2.2.1, ?_, ?_⟩
  · rw [h.1, hceil]
    rfl
  · apply h.2.2.2.2.2.1
    rw [show ((CHUNK_DURATION_SEC : ℚ)) = 600 by norm_num [CHUNK_DURATION_SEC]]
    norm_num
  · exact h.2.2.2.2.2.2.1 ProbeOutcome.noFfmpeg rfl


theorem mergeFold_allSegments : ∀ (rs : List (Option TranscriptionResult)) (n : Nat) (acc : MergeAcc),
    ((List.enumFrom n rs).foldl (fun acc p => mergeStep acc p.1 p.2) acc).allSegments =
      acc.allSegments ++ ((List.enumFrom n rs).map chunkSegments).join := by
  intro rs
  induction rs with
  | nil => intro n acc; simp [List.enumFrom]
  | cons r rest ih =>
    intro n acc
    simp only [List.enumFrom, List.foldl_cons, List.map_cons, List.join]
    rw [ih]
    cases r with
    | none => simp [mergeStep, chunkSegments]
    | some res =>
      by_cases hseg : res.segments.isEmpty
      · have hnil : res.segments = [] := List.isEmpty_iff.mp hseg
        simp [mergeStep, hseg, chunkSegments, hnil]
      · simp [mergeStep, hseg, chunkSegments, List.append_assoc]

theorem mergeFold_summaries : ∀ (rs : List (Option TranscriptionResult)) (n : Nat) (acc : MergeAcc),
    (∀ r ∈ rs, ∀ res, r = some res → res.segments ≠ []) →
    ((List.enumFrom n rs).foldl (fun acc p => mergeStep acc p.1 p.2) acc).summaries =
      acc.summaries ++ chunkSummaries rs := by
  intro rs
  induction rs with
  | nil => intro n acc _; simp [List.enumFrom, chunkSummaries]
  | cons r rest ih =>
    intro n acc hinv
    have hrest : ∀ r ∈ rest, ∀ res, r = some res → res.segments ≠ [] :=
      fun r hr => hinv r (List.mem_cons_of_mem _ hr)
    simp only [List.enumFrom, List.foldl_cons]
    rw [ih _ _ hrest]
    cases r with
    | none => simp [mergeStep, chunkSummaries]
    | some res =>
      have hne : res.segments ≠ [] := hinv (some res) (List.mem_cons_self _ _) res rfl
      have hseg : res.segments.isEmpty = false := by
        rcases h : res.segments with _ | _
        · exact absurd h hne
        · rfl
      by_cases hsum : res.summary = ""
      · simp [mergeStep, hseg, chunkSummaries, hsum]
      · simp [mergeStep, hseg, chunkSummaries, hsum]

theorem mergeFold_language : ∀ (rs : List (Option TranscriptionResult)) (n : Nat) (acc : MergeAcc),
    (∀ r ∈ rs, ∀ res, r = some res → res.segments ≠ []) →
    ((List.enumFrom n rs).foldl (fun acc p => mergeStep acc p.1 p.2) acc).detectedLanguage =
      ((chunkLanguages rs).filter (fun s => decide (s ≠ ""))).getLastD acc.detectedLanguage := by
  intro rs
  induction rs with
  | nil => intro n acc _; simp [List.enumFrom, chunkLanguages]
  | cons r rest ih =>
    intro n acc hinv
    have hrest : ∀ r ∈ rest, ∀ res, r = some res → res.segments ≠ [] :=
      fun r hr => hinv r (List.mem_cons_of_mem _ hr)
    simp only [List.enumFrom, List.foldl_cons]
    rw [ih _ _ hrest]
    cases r with
    | none => simp [mergeStep, chunkLanguages]
    | some res =>
      have hne : res.segments ≠ [] := hinv (some res) (List.mem_cons_self _ _) res rfl
      have hseg : res.segments.isEmpty = false := by
        rcases h : res.segments with _ | _
        · exact absurd h hne
        · rfl
      by_cases hl : res.detected_language = ""
      · simp [mergeStep, hseg, chunkLanguages, hl]
      · have hstep : (mergeStep acc n (some res)).detectedLanguage = res.detected_language := by
          simp [mergeStep, hseg, hl]
        have hchain : chunkLanguages (some res :: rest) =
            res.detected_language :: chunkLanguages rest := by
          simp [chunkLanguages]
        rw [hstep, hchain, List.filter_cons, if_pos (by simp [hl]), List.getLastD_cons]

theorem mergeFold_speakers : ∀ (rs : List (Option TranscriptionResult)) (n : Nat) (acc : MergeAcc),
    (∀ r ∈ rs, ∀ res, r = some res → res.segments ≠ []) →
    ((List.enumFrom n rs).foldl (fun acc p => mergeStep acc p.1 p.2) acc).speakersCount =
      (chunkSpeakerCounts rs).foldl max acc.speakersCount := by
  intro rs
  induction rs with
  | nil => intro n acc _; simp [List.enumFrom, chunkSpeakerCounts]
  | cons r rest ih =>
    intro n acc hinv
    have hrest : ∀ r ∈ rest, ∀ res, r = some res → res.segments ≠ [] :=
      fun r hr => hinv r (List.mem_cons_of_mem _ hr)
    simp only [List.enumFrom, List.foldl_cons]
    rw [ih _ _ hrest]
    cases r with
    | none => simp [mergeStep, chunkSpeakerCounts]
    | some res =>
      have hne : res.segments ≠ [] := hinv (some res) (List.mem_cons_self _ _) res rfl
      have hseg : res.segments.isEmpty = false := by
        rcases h : res.segments with _ | _
        · exact absurd h hne
        · rfl
      by_cases hsc : res.speakers_count = 0
      · simp [mergeStep, hseg, chunkSpeakerCounts, hsc]
      · simp [mergeStep, hseg, chunkSpeakerCounts, hsc]

theorem if_zero_eq_max_one (m : Nat) : (if m = 0 then 1 else m) = max 1 m := by
  cases m with
  | zero => rfl
  | succ k => simp [Nat.max_eq_right (by omega : 1 ≤ k + 1)]

/-- Claim C3: for every sequence of per-chunk results (each present result
having a non-empty segment list, the invariant `runSingleChunk`
guarantees), the merged accumulator concatenates the offset-adjusted
segments in chunk-index order, collects the non-empty summaries, keeps
the last non-empty detected language, and takes the maximum speaker
count; on a non-empty merge the completed task update carries the
summaries joined by a blank line, that language, and the maximum speaker
count with a floor of one. -/
theorem merge_aggregation (rs : List (Option TranscriptionResult))
    (hinv : ∀ r ∈ rs, ∀ res, r = some res → res.segments ≠ []) :
    (mergeResults rs).allSegments = ((rs.enum).map chunkSegments).join ∧
    (mergeResults rs).summaries = chunkSummaries rs ∧
    (mergeResults rs).detectedLanguage = specLastNonEmpty (chunkLanguages rs) ∧
    ((mergeResults rs).allSegments ≠ [] →
      finalizeTask rs = TerminalUpdate.completed
        { segments := ((rs.enum).map chunkSegments).join
          summary := String.intercalate (String.mk ['\n', '\n']) (chunkSummaries rs)
          detected_language := specLastNonEmpty (chunkLanguages rs)
          speakers_count := specSpeakerCount (chunkSpeakerCounts rs) }
        (specLastNonEmpty (chunkLanguages rs))
        (specSpeakerCount (chunkSpeakerCounts rs))) := by
  have hsg := mergeFold_allSegments rs 0 ⟨[], [], "", 0⟩
  have hsum := mergeFold_summaries rs 0 ⟨[], [], "", 0⟩ hinv
  have hlang := mergeFold_language rs 0 ⟨[], [], "", 0⟩ hinv
  have hsc := mergeFold_speakers rs 0 ⟨[], [], "", 0⟩ hinv
  have heq1 : (mergeResults rs).allSegments = ((rs.enum).map chunkSegments).join := by
    rw [mergeResults, List.enum, hsg]
    rfl
  have heq2 : (mergeResults rs).summaries = chunkSummaries rs := by
    rw [mergeResults, List.enum, hsum]
    rfl
  have heq3 : (mergeResults rs).detectedLanguage = specLastNonEmpty (chunkLanguages rs) := by
    rw [mergeResults, List.enum, hlang]
    rfl
  have heq4 : (mergeResults rs).speakersCount = (chunkSpeakerCounts rs).foldl max 0 := by
    rw [mergeResults, List.enum, hsc]
  refine ⟨heq1, heq2, heq3, ?_⟩
  intro hne
  have hempty : (mergeResults rs).allSegments.isEmpty = false := by
    rcases h : (mergeResults rs).allSegments with _ | _
    · exact absurd h hne
    · rfl
  rw [finalizeTask]
  simp only [hempty, Bool.false_eq_true, if_false]
  rw [heq1, heq2, heq3, heq4, if_zero_eq_max_one]
  rfl

/-- Witness for C3 at the claimed example: three chunk results with
detected languages of empty, `en`, empty and speaker counts `2, 1, 3`
merge to detected language `en` and speaker count `3`. -/
theorem merge_aggregation_witness :
    (mergeResults
      [some ⟨[⟨"00:00:01", "00:00:02", some ("Speaker A"), "a"⟩], "", "", 2⟩,
       some ⟨[⟨"00:00:03", "00:00:04", some ("Speaker A"), "b"⟩], "", "en", 1⟩,
       some ⟨[⟨"00:00:05", "00:00:06", some ("Speaker A"), "c"⟩], "", "", 3⟩]).detectedLanguage =
      "en" ∧
    specSpeakerCount (chunkSpeakerCounts
      [some ⟨[⟨"00:00:01", "00:00:02", some ("Speaker A"), "a"⟩], "", "", 2⟩,
       some ⟨[⟨"00:00:03", "00:00:04", some ("Speaker A"), "b"⟩], "", "en", 1⟩,
       some ⟨[⟨"00:00:05", "00:00:06", some ("Speaker A"), "c"⟩], "", "", 3⟩]) = 3 := by
  have h := merge_aggregation
    [some ⟨[⟨"00:00:01", "00:00:02", some ("Speaker A"), "a"⟩], "", "", 2⟩,
     some ⟨[⟨"00:00:03", "00:00:04", some ("Speaker A"), "b"⟩], "", "en", 1⟩,
     some ⟨[⟨"00:00:05", "00:00:06", some ("Speaker A"), "c"⟩], "", "", 3⟩]
    (by intro r hr res hres
        simp only [List.mem_cons, List.not_mem_nil, or_false] at hr
        rcases hr with rfl | rfl | rfl <;> cases hres <;> decide)
  refine ⟨?_, by decide⟩
  rw [h.2.2.1]
  decide


theorem flatten_eq_nil_of_forall {α : Type} : ∀ (L : List (List α)),
    (∀ l ∈ L, l = []) → L.flatten = [] := by
  intro L
  induction L with
  | nil => intro _; rfl
  | cons x T ih =>
    intro h
    rw [List.flatten_cons, h x (List.mem_cons_self _ _), List.nil_append]
    exact ih (fun l hl => h l (List.mem_cons_of_mem _ hl))

theorem flatten_ne_nil_of_mem {α : Type} : ∀ (L : List (List α)) (l : List α),
    l ∈ L → l ≠ [] → L.flatten ≠ [] := by
  intro L
  induction L with
  | nil => intro l hl _; exact absurd hl (List.not_mem_nil l)
  | cons x T ih =>
    intro l hl hne
    rw [List.flatten_cons]
    intro happ
    rcases List.append_eq_nil.mp happ with ⟨hx, hT⟩
    rcases List.mem_cons.mp hl with rfl | hmem
    · exact hne hx
    · exact ih l hmem hne hT

/-- Claim C1: for a run over more than one chunk in which chunk `k`
exhausted its retries (its per-chunk result is absent) while every other
chunk returned a result with a non-empty segment list, the terminal task
write is `completed` and the merged result carries exactly the surviving
chunks' offset-adjusted segments; and whenever every chunk's result is
absent or has no segments, the terminal task write is `failed` with the
descriptive no-segments error message. -/
theorem partial_failure_tolerance (rs : List (Option TranscriptionResult))
    (hn : 1 < rs.length) (k : Nat) (hk : k < rs.length)
    (hnone : rs[k]? = some none)
    (hrest : ∀ j, j < rs.length → j ≠ k →
      ∃ res, rs[j]? = some (some res) ∧ res.segments ≠ []) :
    (∃ r lang sc, finalizeTask rs = TerminalUpdate.completed r lang sc ∧
      r.segments = ((rs.enum).map chunkSegments).flatten ∧ r.segments ≠ []) ∧
    (∀ rs2 : List (Option TranscriptionResult),
      (∀ r ∈ rs2, ∀ res, r = some res → res.segments = []) →
      finalizeTask rs2 = TerminalUpdate.failed NO_SEGMENTS_ERROR) := by
  constructor
  · have hinv : ∀ r ∈ rs, ∀ res, r = some res → res.segments ≠ [] := by
      intro r hr res hres
      obtain ⟨i, hi⟩ := List.mem_iff_getElem?.mp hr
      have hilen : i < rs.length := by
        by_contra hge
        rw [List.getElem?_eq_none (by omega)] at hi
        cases hi
      by_cases hik : i = k
      · subst hik
        rw [hnone] at hi
        cases hi
        cases hres
      · obtain ⟨res2, hres2, hne2⟩ := hrest i hilen hik
        rw [hres2] at hi
        cases hi
        cases hres
        exact hne2
    obtain ⟨hsg, _, _, hfin⟩ := merge_aggregation rs hinv
    have hj0 : (if k = 0 then 1 else 0) < rs.length := by
      by_cases h0 : k = 0 <;> simp [h0] <;> omega
    have hj0k : (if k = 0 then 1 else 0) ≠ k := by
      by_cases h0 : k = 0 <;> simp [h0]
      omega
    obtain ⟨res, hres, hne⟩ := hrest (if k = 0 then 1 else 0) hj0 hj0k
    have hget : ((rs.enum).map chunkSegments)[(if k = 0 then 1 else 0)]? =
        some (res.segments.map (adjustSegment ((if k = 0 then 1 else 0) * CHUNK_DURATION_SEC))) := by
      rw [List.getElem?_map, List.enum, List.getElem?_enumFrom, hres]
      simp [chunkSegments]
    have hmem : (res.segments.map (adjustSegment ((if k = 0 then 1 else 0) * CHUNK_DURATION_SEC))) ∈
        (rs.enum).map chunkSegments := by
      exact List.getElem?_mem hget
    have hflat : ((rs.enum).map chunkSegments).flatten ≠ [] := by
      apply flatten_ne_nil_of_mem _ _ hmem
      intro hmap
      exact hne (List.map_eq_nil_iff.mp hmap)
    have hne2 : (mergeResults rs).allSegments ≠ [] := by
      rw [hsg]
      exact hflat
    have hcompl := hfin hne2
    exact ⟨_, _, _, hcompl, rfl, hflat⟩
  · intro rs2 hall
    have hinv0 : (mergeResults rs2).allSegments = ((rs2.enum).map chunkSegments).flatten := by
      have h := mergeFold_allSegments rs2 0 ⟨[], [], "", 0⟩
      rw [mergeResults, List.enum, h]
      rfl
    have hnil : ((rs2.enum).map chunkSegments).flatten = [] := by
      apply flatten_eq_nil_of_forall
      intro l hl
      obtain ⟨p, hp, rfl⟩ := List.mem_map.mp hl
      have hp2 : p.2 ∈ rs2 := by
        have h5 := List.mem_enum_iff_getElem?.mp hp
        exact List.getElem?_mem h5
      rcases hp3 : p.2 with _ | res
      · simp [chunkSegments, hp3]
      · have hseg := hall p.2 hp2 res hp3
        simp [chunkSegments, hp3, hseg]
    have hempty : (mergeResults rs2).allSegments.isEmpty = true := by
      rw [hinv0, hnil]
      rfl
    rw [finalizeTask]
    simp only [hempty, if_true]

/-- Witness for C1: with two chunks where the first is absent and the
second produced one segment, the task completes with a non-empty merged
segment list; with every chunk absent the task fails with the
no-segments message. -/
theorem partial_failure_tolerance_witness :
    (∃ r lang sc, finalizeTask
        [none, some ⟨[⟨"00:00:01", "00:00:02", some ("Speaker A"), "hi"⟩], "s", "en", 2⟩] =
      TerminalUpdate.completed r lang sc ∧ r.segments ≠ []) ∧
    finalizeTask [none, none] = TerminalUpdate.failed NO_SEGMENTS_ERROR := by
  have h := partial_failure_tolerance
    [none, some ⟨[⟨"00:00:01", "00:00:02", some ("Speaker A"), "hi"⟩], "s", "en", 2⟩]
    (by decide) 0 (by decide) rfl
    (by intro j hj hjk
        simp only [List.length_cons, List.length_nil] at hj
        interval_cases j
        · exact absurd rfl hjk
        · exact ⟨_, rfl, by decide⟩)
  obtain ⟨⟨r, lang, sc, hfin, _, hner⟩, hfail⟩ := h
  refine ⟨⟨r, lang, sc, hfin, hner⟩, ?_⟩
  apply hfail
  intro r2 hr2 res hres
  rcases List.mem_cons.mp hr2 with rfl | hr3
  · cases hres
  · rcases List.mem_cons.mp hr3 with rfl | hr4
    · cases hres
    · exact absurd hr4 (List.not_mem_nil r2)

theorem applyWrites_length (ws : List (Nat × Option TranscriptionResult)) :
    ∀ arr, (applyWrites ws arr).length = arr.length := by
  induction ws with
  | nil => intro arr; rfl
  | cons w rest ih =>
    intro arr
    rw [applyWrites, List.foldl_cons]
    have h := ih (arr.set w.1 w.2)
    rw [applyWrites] at h
    rw [h, List.length_set]

theorem applyWrites_getElem? (f : Nat → Option TranscriptionResult) :
    ∀ (order : List Nat) (arr : List (Option TranscriptionResult)) (j : Nat), j < arr.length →
    (applyWrites (order.map fun i => (i, f i)) arr)[j]? =
      if j ∈ order then some (f j) else arr[j]? := by
  intro order
  induction order with
  | nil =>
    intro arr j hj
    simp [applyWrites]
  | cons i rest ih =>
    intro arr j hj
    rw [List.map_cons, applyWrites, List.foldl_cons]
    have hlen : j < (arr.set i (f i)).length := by
      rw [List.length_set]
      exact hj
    have h := ih (arr.set i (f i)) j hlen
    rw [applyWrites] at h
    rw [h]
    by_cases hjr : j ∈ rest
    · simp [hjr, List.mem_cons]
    · by_cases hji : j = i
      · subst hji
        simp only [hjr, if_false, List.mem_cons, true_or, if_true]
        exact List.getElem?_set_eq_of_lt _ hj
      · have hne : i ≠ j := fun hh => hji hh.symm
        simp only [List.getElem?_set_ne hne, hjr, if_false, List.mem_cons]
        simp [hji, hjr]

/-- Claim C6: for a fixed assignment `f` of per-chunk results to chunk
indices, writing the results into the `results` array in any completion
order that is a permutation of the index range, then merging, produces
the same terminal task update as processing the chunks strictly
sequentially in index order — the merged output is invariant to
completion order. -/
theorem merge_order_independent (n : Nat) (f : Nat → Option TranscriptionResult)
    (order : List Nat) (hperm : order.Perm (List.range n)) :
    finalizeTask (applyWrites (order.map fun i => (i, f i)) (List.replicate n none)) =
      finalizeTask ((List.range n).map f) := by
  have harr : applyWrites (order.map fun i => (i, f i)) (List.replicate n none) =
      (List.range n).map f := by
    apply List.ext_getElem?
    intro j
    by_cases hj : j < n
    · rw [applyWrites_getElem? f order (List.replicate n none) j (by simpa using hj)]
      have hjmem : j ∈ order := hperm.mem_iff.mpr (List.mem_range.mpr hj)
      rw [if_pos hjmem, List.getElem?_map, List.getElem?_range hj]
      rfl
    · have h1 : (applyWrites (order.map fun i => (i, f i)) (List.replicate n none)).length ≤ j := by
        rw [applyWrites_length]
        simpa using not_lt.mp hj
      have h2 : ((List.range n).map f).length ≤ j := by
        rw [List.length_map, List.length_range]
        exact not_lt.mp hj
      rw [List.getElem?_eq_none h1, List.getElem?_eq_none h2]
  rw [harr]

/-- Witness for C6: two chunk results written in the shuffled completion
order `[1, 0]` merge to the same terminal update as sequential
processing of indices `0, 1`. -/
theorem merge_order_independent_witness :
    finalizeTask (applyWrites ([1, 0].map fun i =>
        (i, if i = 0 then some (⟨[⟨"00:00:01", "00:00:02", some ("Speaker A"), "x"⟩], "", "en", 2⟩ :
          TranscriptionResult) else some ⟨[⟨"00:00:03", "00:00:04", some ("Speaker B"), "y"⟩], "", "", 1⟩))
        (List.replicate 2 none)) =
      finalizeTask ((List.range 2).map fun i =>
        (if i = 0 then some (⟨[⟨"00:00:01", "00:00:02", some ("Speaker A"), "x"⟩], "", "en", 2⟩ :
          TranscriptionResult) else some ⟨[⟨"00:00:03", "00:00:04", some ("Speaker B"), "y"⟩], "", "", 1⟩)) :=
  merge_order_independent 2 _ [1, 0] (by decide)


/-- Claim C7: the parse step is total and never raises: an empty (or
whitespace-only) raw text is rejected; a successful strict parse is used
as is; only on a strict-parse failure is the repair pass followed by a
strict parse of the repaired text used; and a chunk attempt accepts a
parsed payload only when its segment list is non-empty — an empty or
missing list is a parse failure (absent), not a zero-segment success. -/
theorem parse_never_raises (jp : String → Option TranscriptionResult)
    (jr : String → Option String) (raw : String) :
    (jsTrim raw = "" → parseGeminiJson jp jr raw = none) ∧
    (jsTrim raw ≠ "" → ∀ r, jp raw = some r → parseGeminiJson jp jr raw = some r) ∧
    (jsTrim raw ≠ "" → jp raw = none →
      parseGeminiJson jp jr raw = (jr raw).bind jp) ∧
    accepts none = false ∧
    (∀ r, accepts (some r) = true ↔ r.segments ≠ []) ∧
    (∀ specs : Nat → AttemptSpec, specs 0 = AttemptSpec.genOk raw →
      runSingleChunk jp jr specs 0 =
        (if accepts (parseGeminiJson jp jr raw) = true then parseGeminiJson jp jr raw else none,
         [ChunkEvent.upload 0, ChunkEvent.deleteRemote 0, ChunkEvent.unlinkLocal])) := by
  refine ⟨?_, ?_, ?_, rfl, ?_, ?_⟩
  · intro h
    simp [parseGeminiJson, h]
  · intro h r hr
    simp [parseGeminiJson, h, hr]
  · intro h hnone
    simp only [parseGeminiJson, h, if_false, hnone]
    rcases hjr : jr raw with _ | rep <;> simp [hjr]
  · intro r
    simp only [accepts, Bool.not_eq_true', List.isEmpty_iff]
    constructor
    · intro h
      intro hnil
      rw [hnil] at h
      cases h
    · intro h
      rcases hs : r.segments with _ | _
      · exact absurd hs h
      · rfl
  · intro specs h0
    by_cases hacc : accepts (parseGeminiJson jp jr raw) = true
    · simp [runSingleChunk, runSingleChunkAux, h0, hacc]
    · simp [runSingleChunk, runSingleChunkAux, h0, hacc]

/-- Witness for C7: a raw text that fails the strict parse is recovered
through the repair pass and parsed to a concrete payload. -/
theorem parse_never_raises_witness :
    parseGeminiJson
      (fun s => if s = "X" then
        some ⟨[⟨"00:00:00", "00:00:01", some ("Speaker A"), "t"⟩], "", "", 1⟩ else none)
      (fun s => if s = "bad" then some ("X") else none) "bad" =
      some ⟨[⟨"00:00:00", "00:00:01", some ("Speaker A"), "t"⟩], "", "", 1⟩ := by
  have h := parse_never_raises
    (fun s => if s = "X" then
      some ⟨[⟨"00:00:00", "00:00:01", some ("Speaker A"), "t"⟩], "", "", 1⟩ else none)
    (fun s => if s = "bad" then some ("X") else none) "bad"
  have h3 := h.2.2.1 (by decide) (by decide)
  rw [h3]
  decide

theorem runSingleChunkAux_fail_step (jp : String → Option TranscriptionResult)
    (jr : String → Option String) (specs : Nat → AttemptSpec)
    (retries attempt remaining : Nat) (stale : Option Nat)
    (h : attemptFails jp jr (specs attempt) = true) :
    runSingleChunkAux jp jr specs retries attempt (remaining + 1) stale =
      if attempt = retries then
        (none, failEvents (specs attempt) attempt stale ++ [ChunkEvent.unlinkLocal])
      else
        ((runSingleChunkAux jp jr specs retries (attempt + 1) remaining
            (staleAfter (specs attempt) attempt stale)).1,
          failEvents (specs attempt) attempt stale ++
            ChunkEvent.sleep (2 ^ attempt * 2000) ::
              (runSingleChunkAux jp jr specs retries (attempt + 1) remaining
                (staleAfter (specs attempt) attempt stale)).2) := by
  rcases hs : specs attempt with _ | st | _ | raw
  · simp [runSingleChunkAux, hs, failEvents, staleAfter]
  · simp [runSingleChunkAux, hs, failEvents, staleAfter]
  · simp [runSingleChunkAux, hs, failEvents, staleAfter]
  · have hacc : accepts (parseGeminiJson jp jr raw) = false := by
      rw [hs] at h
      simpa [attemptFails] using h
    simp [runSingleChunkAux, hs, hacc, failEvents, staleAfter]

theorem runSingleChunk_fail3_trace (jp : String → Option TranscriptionResult)
    (jr : String → Option String) (specs : Nat → AttemptSpec)
    (h0 : attemptFails jp jr (specs 0) = true)
    (h1 : attemptFails jp jr (specs 1) = true)
    (h2 : attemptFails jp jr (specs 2) = true) :
    runSingleChunk jp jr specs 2 =
      (none,
        failEvents (specs 0) 0 none ++ ChunkEvent.sleep 2000 ::
          (failEvents (specs 1) 1 (staleAfter (specs 0) 0 none) ++ ChunkEvent.sleep 4000 ::
            (failEvents (specs 2) 2 (staleAfter (specs 1) 1 (staleAfter (specs 0) 0 none)) ++
              [ChunkEvent.unlinkLocal]))) := by
  rw [runSingleChunk]
  rw [show (2 : Nat) + 1 = 2 + 1 from rfl]
  rw [runSingleChunkAux_fail_step jp jr specs 2 0 2 none h0]
  rw [if_neg (by omega : ¬(0 = 2))]
  rw [runSingleChunkAux_fail_step jp jr specs 2 1 1 _ h1]
  rw [if_neg (by omega : ¬(1 = 2))]
  rw [runSingleChunkAux_fail_step jp jr specs 2 2 0 _ h2]
  rw [if_pos rfl]
  norm_num

theorem filter_sleep_failEvents (s : AttemptSpec) (a : Nat) (st : Option Nat) :
    (failEvents s a st).filter isSleepEvent = [] := by
  cases s <;> cases st <;> rfl

theorem filter_upload_failEvents (s : AttemptSpec) (a : Nat) (st : Option Nat) :
    (failEvents s a st).filter isUploadEvent = [ChunkEvent.upload a] := by
  cases s <;> cases st <;> rfl

theorem deleteRemote_mem_failEvents (s : AttemptSpec) (a : Nat) (st : Option Nat)
    (h : s ≠ AttemptSpec.failUpload) :
    ChunkEvent.deleteRemote a ∈ failEvents s a st := by
  cases s with
  | failUpload => exact absurd rfl h
  | failState st2 => simp [failEvents, delEvents]
  | failGenerate => simp [failEvents, delEvents]
  | genOk raw => simp [failEvents]

/-- Claim C4: with the default retry budget (`retries = 2`, three
attempts), when every attempt fails — during upload, the processing
wait, generation, or response validation — the chunk returns absent;
every attempt issues a fresh upload; the backoff sleeps between attempts
are exactly `2^0 * 2000` and `2^1 * 2000` milliseconds; every attempt
that obtained a remote handle has it best-effort deleted; and the very
last side effect is the deletion of the chunk's local file. -/
theorem single_chunk_retry_exhaustion (jp : String → Option TranscriptionResult)
    (jr : String → Option String) (specs : Nat → AttemptSpec)
    (hfail : ∀ a, a < 3 → attemptFails jp jr (specs a) = true) :
    (runSingleChunk jp jr specs 2).1 = none ∧
    ((runSingleChunk jp jr specs 2).2.filter isSleepEvent) =
      [ChunkEvent.sleep 2000, ChunkEvent.sleep 4000] ∧
    ((runSingleChunk jp jr specs 2).2.filter isUploadEvent) =
      [ChunkEvent.upload 0, ChunkEvent.upload 1, ChunkEvent.upload 2] ∧
    (runSingleChunk jp jr specs 2).2.getLast? = some ChunkEvent.unlinkLocal ∧
    (∀ a, a < 3 → specs a ≠ AttemptSpec.failUpload →
      ChunkEvent.deleteRemote a ∈ (runSingleChunk jp jr specs 2).2) := by
  have hT := runSingleChunk_fail3_trace jp jr specs
    (hfail 0 (by omega)) (hfail 1 (by omega)) (hfail 2 (by omega))
  refine ⟨?_, ?_, ?_, ?_, ?_⟩
  · rw [hT]
  · rw [hT]
    simp [List.filter_append, filter_sleep_failEvents, isSleepEvent]
  · rw [hT]
    simp [List.filter_append, filter_upload_failEvents, isUploadEvent]
  · rw [hT]
    have hshape : failEvents (specs 0) 0 none ++ ChunkEvent.sleep 2000 ::
        (failEvents (specs 1) 1 (staleAfter (specs 0) 0 none) ++ ChunkEvent.sleep 4000 ::
          (failEvents (specs 2) 2 (staleAfter (specs 1) 1 (staleAfter (specs 0) 0 none)) ++
            [ChunkEvent.unlinkLocal])) =
        (failEvents (specs 0) 0 none ++ ChunkEvent.sleep 2000 ::
          (failEvents (specs 1) 1 (staleAfter (specs 0) 0 none) ++ ChunkEvent.sleep 4000 ::
            failEvents (specs 2) 2 (staleAfter (specs 1) 1 (staleAfter (specs 0) 0 none)))) ++
          [ChunkEvent.unlinkLocal] := by
      simp
    rw [hshape, List.getLast?_concat]
  · intro a ha hne
    rw [hT]
    interval_cases a
    · exact List.mem_append_left _ (deleteRemote_mem_failEvents (specs 0) 0 none hne)
    · apply List.mem_append_right
      apply List.mem_cons_of_mem
      exact List.mem_append_left _
        (deleteRemote_mem_failEvents (specs 1) 1 (staleAfter (specs 0) 0 none) hne)
    · apply List.mem_append_right
      apply List.mem_cons_of_mem
      apply List.mem_append_right
      apply List.mem_cons_of_mem
      exact List.mem_append_left _
        (deleteRemote_mem_failEvents (specs 2) 2
          (staleAfter (specs 1) 1 (staleAfter (specs 0) 0 none)) hne)

/-- Witness for C4: an upload failure, a remote-state failure, and an
unparsable generation in the three attempts return absent with backoff
sleeps of exactly 2000 and 4000 milliseconds, and the local file is
deleted last. -/
theorem single_chunk_retry_exhaustion_witness :
    (runSingleChunk (fun _ => none) (fun _ => none)
      (fun a => if a = 0 then AttemptSpec.failUpload
        else if a = 1 then AttemptSpec.failState ("FAILED")
        else AttemptSpec.genOk ("garbage")) 2).1 = none ∧
    ((runSingleChunk (fun _ => none) (fun _ => none)
      (fun a => if a = 0 then AttemptSpec.failUpload
        else if a = 1 then AttemptSpec.failState ("FAILED")
        else AttemptSpec.genOk ("garbage")) 2).2.filter isSleepEvent) =
      [ChunkEvent.sleep 2000, ChunkEvent.sleep 4000] ∧
    (runSingleChunk (fun _ => none) (fun _ => none)
      (fun a => if a = 0 then AttemptSpec.failUpload
        else if a = 1 then AttemptSpec.failState ("FAILED")
        else AttemptSpec.genOk ("garbage")) 2).2.getLast? = some ChunkEvent.unlinkLocal := by
  have h := single_chunk_retry_exhaustion (fun _ => none) (fun _ => none)
    (fun a => if a = 0 then AttemptSpec.failUpload
      else if a = 1 then AttemptSpec.failState ("FAILED")
      else AttemptSpec.genOk ("garbage"))
    (by intro a ha
        interval_cases a <;> decide)
  exact ⟨h.1, h.2.1, h.2.2.2.1⟩

/-- Counterexample for C8: with a single chunk that transcribed
successfully, a failure of the progress write issued after that chunk
completed (write index 3, the per-chunk percentage update) makes the
orchestrator write `failed` with the store error message — the
progress-write failure is not absorbed and the task is marked failed
even though chunk transcription succeeded, contradicting the claim. -/
theorem progress_write_not_isolated :
    runGeminiTranscription
      (fun i => if i = 3 then Except.error ("Directus: 500 Internal Server Error")
        else Except.ok ())
      [some ⟨[⟨"00:00:01", "00:00:02", some ("Speaker A"), "hi"⟩], "", "en", 1⟩] =
      TerminalUpdate.failed ("Directus: 500 Internal Server Error") ∧
    finalizeTask [some ⟨[⟨"00:00:01", "00:00:02", some ("Speaker A"), "hi"⟩], "", "en", 1⟩] =
      TerminalUpdate.completed
        ⟨[⟨"00:00:01", "00:00:02", some ("Speaker A"), "hi"⟩], "", "en", 1⟩ "en" 1 := by
  constructor
  · decide
  · decide

theorem seqWrites_ok_of_forall (w : Nat → Except String Unit) :
    ∀ l : List Nat, (∀ i ∈ l, w i = Except.ok ()) → seqWrites w l = Except.ok () := by
  intro l
  induction l with
  | nil => intro _; rfl
  | cons i rest ih =>
    intro h
    simp only [seqWrites, h i (List.mem_cons_self _ _)]
    exact ih (fun j hj => h j (List.mem_cons_of_mem _ hj))

theorem seqWrites_first_error (w : Nat → Except String Unit) (e : String) :
    ∀ (l1 : List Nat) (k : Nat) (l2 : List Nat),
    (∀ i ∈ l1, w i = Except.ok ()) → w k = Except.error e →
    seqWrites w (l1 ++ k :: l2) = Except.error e := by
  intro l1
  induction l1 with
  | nil =>
    intro k l2 _ hk
    simp only [List.nil_append, seqWrites, hk]
  | cons i rest ih =>
    intro k l2 hok hk
    rw [List.cons_append]
    simp only [seqWrites, hok i (List.mem_cons_self _ _)]
    exact ih k l2 (fun j hj => hok j (List.mem_cons_of_mem _ hj)) hk

theorem range_decomp (n k : Nat) (hk : k < n) :
    List.range n = List.range k ++ k :: List.range' (k + 1) (n - k - 1) := by
  obtain ⟨m, hm⟩ : ∃ m, n - k = m + 1 := ⟨n - k - 1, by omega⟩
  have h1 : k :: List.range' (k + 1) (n - k - 1) = List.range' k (n - k) := by
    rw [hm, List.range'_succ]
    simp
  rw [h1, List.range_eq_range' n, List.range_eq_range' k]
  have h2 : List.range' 0 k ++ List.range' (0 + k) (n - k) = List.range' 0 ((n - k) + k) :=
    List.range'_append_1 0 k (n - k)
  rw [Nat.zero_add] at h2
  rw [h2]
  congr 1
  omega

/-- Claim C8 amended: progress writes to the task store are awaited
inside the guarded block and are not isolated — the first failing
progress write, at whatever position among the `2n + 3` awaited writes
it occurs (all earlier writes having succeeded), propagates to the
top-level handler and the task is written `failed` with that write
error's message, regardless of the per-chunk results and in particular
even when every chunk produced a result; only when all progress writes
succeed does the merge outcome decide the terminal write. -/
theorem progress_write_propagates (w : Nat → Except String Unit)
    (results : List (Option TranscriptionResult)) :
    (∀ k e, k < 2 * results.length + 3 → w k = Except.error e →
      (∀ i, i < k → w i = Except.ok ()) →
      runGeminiTranscription w results = TerminalUpdate.failed e) ∧
    ((∀ i, w i = Except.ok ()) → runGeminiTranscription w results = finalizeTask results) := by
  constructor
  · intro k e hk hke hprev
    rw [runGeminiTranscription, range_decomp (2 * results.length + 3) k hk]
    rw [seqWrites_first_error w e (List.range k) k (List.range' (k + 1)
      (2 * results.length + 3 - k - 1)) (fun i hi => hprev i (List.mem_range.mp hi)) hke]
  · intro hok
    rw [runGeminiTranscription]
    rw [seqWrites_ok_of_forall w (List.range (2 * results.length + 3)) (fun i _ => hok i)]

/-- Witness for the amended C8: over one successfully transcribed chunk,
a store whose fourth write (the per-chunk completion update, index 3)
is the first to fail aborts the run with exactly that error, while a
store whose every write succeeds lets the merge outcome decide. -/
theorem progress_write_propagates_witness :
    runGeminiTranscription
      (fun i => if i = 3 then Except.error ("Directus: 502 Bad Gateway") else Except.ok ())
      [some ⟨[⟨"00:00:01", "00:00:02", some ("Speaker A"), "hi"⟩], "", "en", 1⟩] =
      TerminalUpdate.failed ("Directus: 502 Bad Gateway") ∧
    runGeminiTranscription (fun _ => Except.ok ())
      [some ⟨[⟨"00:00:01", "00:00:02", some ("Speaker A"), "hi"⟩], "", "en", 1⟩] =
      finalizeTask [some ⟨[⟨"00:00:01", "00:00:02", some ("Speaker A"), "hi"⟩], "", "en", 1⟩] := by
  have h1 := progress_write_propagates
    (fun i => if i = 3 then Except.error ("Directus: 502 Bad Gateway") else Except.ok ())
    [some ⟨[⟨"00:00:01", "00:00:02", some ("Speaker A"), "hi"⟩], "", "en", 1⟩]
  have h2 := progress_write_propagates (fun _ => Except.ok ())
    [some ⟨[⟨"00:00:01", "00:00:02", some ("Speaker A"), "hi"⟩], "", "en", 1⟩]
  refine ⟨h1.1 3 ("Directus: 502 Bad Gateway") (by decide) rfl ?_, h2.2 (fun i => rfl)⟩
  intro i hi
  interval_cases i <;> rfl

end Transcribe
